import Mathlib

/-!
Verification of the zamlet repository's two algorithmic components against
its specification:

* the bit-reversal permutation index generator
  (src/python/zamlet/kernel_tests/bitreverse_reorder/compute_indices.c), and
* the width-segmented arena allocator
  (src/python/riscv_model/tests/common/vpu_alloc.c).

The embedding is shallow: the C functions are translated into executable
Lean functions over ℕ.  The index arrays hold 32-bit values and the vector
instructions operate on 32-bit elements (e32), so every vector operation
result is reduced mod 2^32 and every scalar operand of a vector instruction
is truncated to its low 32 bits.  Scalar size_t arithmetic is reduced
mod 2^64.  Shift amounts are modelled as exact shifts.
-/

/-! ## Part 1: the permutation index generator (compute_indices.c) -/

/-- Loop body of the clog2 helper in compute_indices.c (lines 10–15):
counts how many times the value can be halved before it reaches zero. -/
def clog2Aux (value : ℕ) : ℕ :=
  if value = 0 then 0 else 1 + clog2Aux (value / 2)
termination_by value
decreasing_by exact Nat.div_lt_self (Nat.pos_of_ne_zero (by assumption)) (by omega)

/-- The clog2 helper of compute_indices.c (lines 7–16): ceiling log base 2,
computed as the bit length of value - 1, with clog2 0 = 0. -/
def clog2 (value : ℕ) : ℕ :=
  if value = 0 then 0 else clog2Aux (value - 1)

/-- Modelled from the spec: the reversal of the low w bits of x, used to
describe the external primitive bitreverse_vec, which is declared but not
defined in the repository sources.  revBits x 0 = 0 and for w+1 bits the
lowest bit of x becomes the highest of the result. -/
def revBits : ℕ → ℕ → ℕ
  | _, 0 => 0
  | x, w + 1 => x % 2 * 2 ^ w + revBits (x / 2) w

/-- Modelled from the spec: the external vectorized primitive bitreverse_vec
applied to one element.  Only the low w bits of x are reversed; the
remaining high bits pass through unchanged. -/
def bitreverse (x w : ℕ) : ℕ :=
  x >>> w <<< w + revBits x w

/-- Algorithm selection of compute_indices.c (lines 25–26):
use_algo_a = (n >= vl_squared), with vl_squared = vl * vl computed in
size_t arithmetic. -/
def use_algo_a (n vl : ℕ) : Bool :=
  decide (vl * vl % 2 ^ 64 ≤ n)

/-- One lane value of Algorithm A (compute_indices.c lines 40–65).
v0 holds the lane id (vid.v); v8 = v0 * stride (vmul.vx);
per cycle: v1 = (v0 + offset) & stride_mask, v2 = v8 + v1 (e32 ops).
The division cycle / middle_size is ℕ division, which totalizes the
division-by-zero case middle_size = 0 (reached only at n = vl = 2^32, where
the C program's behaviour is undefined); the theorems below keep that corner
outside their domains by requiring vl < 2^32. -/
def readA (n vl cycle lane : ℕ) : ℕ :=
  let stride := n / vl
  let middle_size := stride / vl
  let stride_mask := stride - 1
  let offset := (cycle * vl + cycle / middle_size) % 2 ^ 64
  let v8 := lane * (stride % 2 ^ 32) % 2 ^ 32
  let v1 := (lane + offset % 2 ^ 32) % 2 ^ 32 &&& stride_mask % 2 ^ 32
  (v8 + v1) % 2 ^ 32

/-- One lane value of Algorithm B (compute_indices.c lines 66–100).
v1 = lane >> log2_section_size; v2 = lane & section_mask;
v8 = v1 * vl; v2 = v2 * stride; v9 = v2 + v1;
per cycle: t = (v9 + cycle) & vl_mask and the result is v8 + t (e32 ops). -/
def readB (n vl cycle lane : ℕ) : ℕ :=
  let clog2_n := clog2 n
  let log2_vl := clog2 vl
  let log2_section_size := 2 * log2_vl - clog2_n
  let section_mask := 1 <<< log2_section_size - 1
  let vl_mask := vl - 1
  let stride := n / vl
  let v1 := lane >>> log2_section_size
  let v2 := lane &&& section_mask % 2 ^ 32
  let v8 := v1 * (vl % 2 ^ 32) % 2 ^ 32
  let v2' := v2 * (stride % 2 ^ 32) % 2 ^ 32
  let v9 := (v2' + v1) % 2 ^ 32
  let t := (v9 + cycle % 2 ^ 32) % 2 ^ 32 &&& vl_mask % 2 ^ 32
  (v8 + t) % 2 ^ 32

/-- The read_idx buffer filled by compute_indices (lines 37–101): n / vl
vector steps, each storing vl consecutive lane values. -/
def read_idx (n vl : ℕ) : List ℕ :=
  (List.range (n / vl)).flatMap fun cycle =>
    (List.range vl).map fun lane =>
      if use_algo_a n vl then readA n vl cycle lane else readB n vl cycle lane

/-- The write_idx buffer of compute_indices (line 110):
bitreverse_vec(n, read_idx, write_idx, clog2_n) applied elementwise,
with the default width clog2 n. -/
def write_idx (n vl : ℕ) : List ℕ :=
  (read_idx n vl).map fun x => bitreverse x (clog2 n)

/-- compute_indices (lines 18–116): fills the caller's read and write
index buffers. -/
def compute_indices (n vl : ℕ) : List ℕ × List ℕ :=
  (read_idx n vl, write_idx n vl)

/-! ## Part 2: the arena allocator (vpu_alloc.c) -/

/-- Pool base address for width class 1 (vpu_alloc.c line 5). -/
def VPU_BASE_1 : ℕ := 0x90000000

/-- Pool base address for width class 8 (line 6). -/
def VPU_BASE_8 : ℕ := 0x90040000

/-- Pool base address for width class 16 (line 7). -/
def VPU_BASE_16 : ℕ := 0x90080000

/-- Pool base address for width class 32 (line 8). -/
def VPU_BASE_32 : ℕ := 0x900C0000

/-- Pool base address for width class 64 (line 9). -/
def VPU_BASE_64 : ℕ := 0x90100000

/-- Pool capacity, 256 KiB per pool (line 10). -/
def VPU_POOL_SIZE : ℕ := 256 * 1024

/-- Number of SIMD lanes (line 12). -/
def N_LANES : ℕ := 4

/-- Word width in bytes (line 13). -/
def WORD_WIDTH : ℕ := 8

/-- Alignment constant (line 14): N_LANES * WORD_WIDTH = 32 bytes. -/
def ALIGNMENT : ℕ := N_LANES * WORD_WIDTH

/-- The five mutable pool cursors brk_1 .. brk_64 (lines 17–21). -/
structure AllocState where
  brk_1 : ℕ
  brk_8 : ℕ
  brk_16 : ℕ
  brk_32 : ℕ
  brk_64 : ℕ

/-- Initial cursors: each pool starts at its base address (lines 17–21). -/
def initialAllocState : AllocState :=
  ⟨VPU_BASE_1, VPU_BASE_8, VPU_BASE_16, VPU_BASE_32, VPU_BASE_64⟩

/-- The rounding expression (x + ALIGNMENT - 1) & ~(ALIGNMENT - 1) in 64-bit
size_t arithmetic (lines 24 and 40); ~(ALIGNMENT - 1) as a 64-bit word is
2^64 - ALIGNMENT. -/
def alignUp (x : ℕ) : ℕ :=
  (x + ALIGNMENT - 1) % 2 ^ 64 &&& (2 ^ 64 - ALIGNMENT)

/-- The per-pool body of vpu_alloc (lines 40–49) for an already-rounded
size sz: align the cursor, take the pointer, advance the cursor, and exit
with status 2 when the new cursor exceeds the pool limit.  A fatal exit
is modelled as an error value carrying the exit status; the process dies,
so no state survives an error. -/
def allocPool (sz brk limit : ℕ) : Except ℕ (ℕ × ℕ) :=
  let b := alignUp brk
  let b' := (b + sz) % 2 ^ 64
  if limit < b' then .error 2 else .ok (b, b')

/-- vpu_alloc (vpu_alloc.c lines 23–50): round the size, select the pool by
element_width (exit status 1 for an unknown width class, before any cursor
is touched), and bump the selected pool's cursor. -/
def vpu_alloc (size : ℕ) (element_width : ℤ) (s : AllocState) :
    Except ℕ (ℕ × AllocState) :=
  let sz := alignUp size
  if element_width = 1 then
    (allocPool sz s.brk_1 (VPU_BASE_1 + VPU_POOL_SIZE)).map
      fun pb => (pb.1, { s with brk_1 := pb.2 })
  else if element_width = 8 then
    (allocPool sz s.brk_8 (VPU_BASE_8 + VPU_POOL_SIZE)).map
      fun pb => (pb.1, { s with brk_8 := pb.2 })
  else if element_width = 16 then
    (allocPool sz s.brk_16 (VPU_BASE_16 + VPU_POOL_SIZE)).map
      fun pb => (pb.1, { s with brk_16 := pb.2 })
  else if element_width = 32 then
    (allocPool sz s.brk_32 (VPU_BASE_32 + VPU_POOL_SIZE)).map
      fun pb => (pb.1, { s with brk_32 := pb.2 })
  else if element_width = 64 then
    (allocPool sz s.brk_64 (VPU_BASE_64 + VPU_POOL_SIZE)).map
      fun pb => (pb.1, { s with brk_64 := pb.2 })
  else .error 1

/-- A width class accepted by the switch in vpu_alloc (lines 29–37). -/
def validWidth (w : ℤ) : Prop :=
  w = 1 ∨ w = 8 ∨ w = 16 ∨ w = 32 ∨ w = 64

/-- Base address of the pool a valid width class selects. -/
def poolBase (w : ℤ) : ℕ :=
  if w = 1 then VPU_BASE_1
  else if w = 8 then VPU_BASE_8
  else if w = 16 then VPU_BASE_16
  else if w = 32 then VPU_BASE_32
  else VPU_BASE_64

/-- Cursor of the pool a valid width class selects. -/
def poolBrk (w : ℤ) (s : AllocState) : ℕ :=
  if w = 1 then s.brk_1
  else if w = 8 then s.brk_8
  else if w = 16 then s.brk_16
  else if w = 32 then s.brk_32
  else s.brk_64

/-- The spec's pool invariant: base ≤ cursor ≤ base + capacity and the
cursor is a multiple of the alignment. -/
def poolInv (base brk : ℕ) : Prop :=
  base ≤ brk ∧ brk ≤ base + VPU_POOL_SIZE ∧ brk % ALIGNMENT = 0

/-- The pool invariant for all five pools. -/
def allocInv (s : AllocState) : Prop :=
  poolInv VPU_BASE_1 s.brk_1 ∧ poolInv VPU_BASE_8 s.brk_8 ∧
  poolInv VPU_BASE_16 s.brk_16 ∧ poolInv VPU_BASE_32 s.brk_32 ∧
  poolInv VPU_BASE_64 s.brk_64

/-- A sequence of vpu_alloc calls.  On success it returns the trace of
allocations, each recorded as (width class, returned pointer, rounded
size), together with the final state. -/
def allocRun (s : AllocState) : List (ℕ × ℤ) → Except ℕ (List (ℤ × ℕ × ℕ) × AllocState)
  | [] => .ok ([], s)
  | (size, w) :: rest =>
    match vpu_alloc size w s with
    | .error e => .error e
    | .ok (p, s') =>
      match allocRun s' rest with
      | .error e => .error e
      | .ok (tr, sF) => .ok ((w, p, alignUp size) :: tr, sF)

/-! ## Basic arithmetic and evaluation lemmas -/

theorem clog2Aux_two_pow_sub_one (g : ℕ) : clog2Aux (2 ^ g - 1) = g := by
  induction g with
  | zero => simp [clog2Aux]
  | succ g ih =>
    have h2 : (2 : ℕ) ^ (g + 1) = 2 * 2 ^ g := by ring
    have hp : 0 < (2 : ℕ) ^ g := Nat.two_pow_pos g
    rw [clog2Aux, if_neg (by omega)]
    have h3 : (2 ^ (g + 1) - 1) / 2 = 2 ^ g - 1 := by omega
    rw [h3, ih]
    omega

theorem clog2_two_pow (g : ℕ) : clog2 (2 ^ g) = g := by
  rw [clog2, if_neg (by positivity)]
  exact clog2Aux_two_pow_sub_one g

theorem clog2_eight : clog2 8 = 3 := by
  simpa using clog2_two_pow 3

theorem clog2_sixteen : clog2 16 = 4 := by
  simpa using clog2_two_pow 4

/-- Unique decomposition of a * s + r with r < s. -/
theorem mul_add_lt_unique {s a b r1 r2 : ℕ} (h : a * s + r1 = b * s + r2)
    (h1 : r1 < s) (h2 : r2 < s) : a = b ∧ r1 = r2 := by
  have hs : 0 < s := by omega
  have ha : (a * s + r1) / s = a := by
    rw [Nat.mul_comm a s, Nat.mul_add_div hs, Nat.div_eq_of_lt h1]; omega
  have hb : (b * s + r2) / s = b := by
    rw [Nat.mul_comm b s, Nat.mul_add_div hs, Nat.div_eq_of_lt h2]; omega
  have hab : a = b := by rw [← ha, ← hb, h]
  refine ⟨hab, ?_⟩
  subst hab
  omega

/-- Characterization of the 64-bit align mask: and-ing with
2^64 - ALIGNMENT clears the low five bits. -/
theorem and_align_mask (y : ℕ) (hy : y < 2 ^ 64) :
    y &&& (2 ^ 64 - ALIGNMENT) = y / 32 * 32 := by
  apply Nat.eq_of_testBit_eq
  intro i
  have hd : y / 32 * 32 = y >>> 5 <<< 5 := by
    rw [Nat.shiftRight_eq_div_pow, Nat.shiftLeft_eq]
  have hA : (2 : ℕ) ^ 64 - ALIGNMENT = 2 ^ 5 * (2 ^ 59 - 1) := by
    norm_num [ALIGNMENT, N_LANES, WORD_WIDTH]
  rw [hd, Nat.testBit_and, hA, Nat.testBit_mul_pow_two, Nat.testBit_shiftLeft,
    Nat.testBit_shiftRight, Nat.testBit_two_pow_sub_one]
  rcases lt_or_le i 5 with h5 | h5
  · simp [show ¬(i ≥ 5) by omega]
  · rw [show 5 + (i - 5) = i by omega]
    simp only [ge_iff_le, h5, decide_eq_true_eq, Bool.true_and, decide_True]
    rcases lt_or_le (i - 5) 59 with h59 | h59
    · simp [h59]
    · have hyi : y < 2 ^ i :=
        lt_of_lt_of_le hy (Nat.pow_le_pow_right (by norm_num) (by omega))
      simp [Nat.testBit_lt_two_pow hyi, show ¬(i - 5 < 59) by omega]

theorem alignUp_eq_of_small (x : ℕ) (hx : x + 31 < 2 ^ 64) :
    alignUp x = (x + 31) / 32 * 32 := by
  rw [alignUp, show x + ALIGNMENT - 1 = x + 31 by norm_num [ALIGNMENT, N_LANES, WORD_WIDTH],
    Nat.mod_eq_of_lt hx, and_align_mask _ hx]

theorem alignUp_mod (x : ℕ) : alignUp x % 32 = 0 := by
  rw [alignUp, and_align_mask _ (Nat.mod_lt _ (by norm_num))]
  exact Nat.mul_mod_left _ _

theorem alignUp_ge (x : ℕ) (hx : x + 31 < 2 ^ 64) : x ≤ alignUp x := by
  rw [alignUp_eq_of_small x hx]
  omega

theorem alignUp_le (x : ℕ) (hx : x + 31 < 2 ^ 64) : alignUp x ≤ x + 31 := by
  rw [alignUp_eq_of_small x hx]
  omega

theorem alignUp_of_aligned (x : ℕ) (hx : x + 31 < 2 ^ 64) (ha : x % 32 = 0) :
    alignUp x = x := by
  rw [alignUp_eq_of_small x hx]
  omega

/-! ## Clean forms of the two index algorithms -/

theorem two_pow_sub_mul {a b : ℕ} (h : b ≤ a) : 2 ^ (a - b) * 2 ^ b = 2 ^ a := by
  rw [← pow_add]
  congr 1
  omega

/-- The read_idx buffer as a single map over positions. -/
theorem read_idx_eq (n vl : ℕ) :
    read_idx n vl = (List.range (n / vl * vl)).map fun p =>
      if use_algo_a n vl then readA n vl (p / vl) (p % vl)
      else readB n vl (p / vl) (p % vl) := by
  rw [read_idx]
  generalize n / vl = m
  induction m with
  | zero => simp
  | succ m ih =>
    rw [List.range_succ, List.flatMap_append, ih, Nat.succ_mul, List.range_add,
      List.map_append, List.flatMap_cons, List.flatMap_nil, List.append_nil,
      List.map_map]
    congr 1
    apply List.map_congr_left
    intro l hl
    have hlk : l < vl := List.mem_range.mp hl
    have hd : (m * vl + l) / vl = m := by
      rw [Nat.mul_comm m vl, Nat.mul_add_div (by omega), Nat.div_eq_of_lt hlk]
      omega
    have hm : (m * vl + l) % vl = l := by
      rw [Nat.mul_comm m vl, Nat.mul_add_mod, Nat.mod_eq_of_lt hlk]
    simp only [Function.comp, hd, hm]

/-- Clean form of Algorithm A in the power-of-two regime n ≥ vl². -/
theorem readA_eq (g v cycle lane : ℕ) (hg : g ≤ 32) (h2v : 2 * v ≤ g)
    (hc : cycle < 2 ^ (g - v)) (hl : lane < 2 ^ v) :
    readA (2 ^ g) (2 ^ v) cycle lane =
      lane * 2 ^ (g - v) +
        (lane + (cycle * 2 ^ v + cycle / 2 ^ (g - 2 * v))) % 2 ^ (g - v) := by
  have hvg : v ≤ g := by omega
  have hstride : (2 : ℕ) ^ g / 2 ^ v = 2 ^ (g - v) := Nat.pow_div hvg (by norm_num)
  have hMv : (2 : ℕ) ^ (g - 2 * v) * 2 ^ v = 2 ^ (g - v) := by
    rw [← pow_add]
    congr 1
    omega
  have hmiddle : (2 : ℕ) ^ (g - v) / 2 ^ v = 2 ^ (g - 2 * v) := by
    rw [Nat.pow_div (by omega) (by norm_num)]
    congr 1
    omega
  have hg32 : (2 : ℕ) ^ g ≤ 2 ^ 32 := Nat.pow_le_pow_right (by norm_num) hg
  have hvle : (2 : ℕ) ^ v ≤ 2 ^ g := Nat.pow_le_pow_right (by norm_num) hvg
  have hSle : (2 : ℕ) ^ (g - v) ≤ 2 ^ g := Nat.pow_le_pow_right (by norm_num) (by omega)
  have hSpos : 0 < (2 : ℕ) ^ (g - v) := Nat.two_pow_pos _
  have hMpos : 0 < (2 : ℕ) ^ (g - 2 * v) := Nat.two_pow_pos _
  have hcM : cycle / 2 ^ (g - 2 * v) < 2 ^ v := by
    rw [Nat.div_lt_iff_lt_mul hMpos, Nat.mul_comm]
    exact lt_of_lt_of_le hc (le_of_eq hMv.symm)
  have hcv : cycle * 2 ^ v ≤ 2 ^ g - 2 ^ v := by
    have h1 : cycle * 2 ^ v ≤ (2 ^ (g - v) - 1) * 2 ^ v :=
      Nat.mul_le_mul_right _ (by omega)
    have h2 : (2 ^ (g - v) - 1) * 2 ^ v = 2 ^ g - 2 ^ v := by
      rw [Nat.sub_mul, one_mul, two_pow_sub_mul hvg]
    omega
  have hvpos : 0 < (2 : ℕ) ^ v := Nat.two_pow_pos _
  have hoff : cycle * 2 ^ v + cycle / 2 ^ (g - 2 * v) < 2 ^ g := by omega
  have hoff64 : cycle * 2 ^ v + cycle / 2 ^ (g - 2 * v) < 2 ^ 64 := by
    have : (2 : ℕ) ^ 32 ≤ 2 ^ 64 := by norm_num
    omega
  have hoff32 : cycle * 2 ^ v + cycle / 2 ^ (g - 2 * v) < 2 ^ 32 := by omega
  simp only [readA, hstride, hmiddle]
  rw [Nat.mod_eq_of_lt hoff64, Nat.mod_eq_of_lt hoff32,
    Nat.mod_eq_of_lt (show (2 : ℕ) ^ (g - v) - 1 < 2 ^ 32 by
      have : (2 : ℕ) ^ (g - v) ≤ 2 ^ 32 := Nat.pow_le_pow_right (by norm_num) (by omega)
      omega),
    Nat.and_pow_two_sub_one_eq_mod,
    Nat.mod_mod_of_dvd _ (pow_dvd_pow 2 (by omega : g - v ≤ 32))]
  have hv8 : lane * (2 ^ (g - v) % 2 ^ 32) % 2 ^ 32 = lane * 2 ^ (g - v) := by
    rcases Nat.lt_or_ge (g - v) 32 with h32 | h32
    · rw [Nat.mod_eq_of_lt (Nat.pow_lt_pow_right (by norm_num) h32)]
      apply Nat.mod_eq_of_lt
      have h1 : lane * 2 ^ (g - v) ≤ (2 ^ v - 1) * 2 ^ (g - v) :=
        Nat.mul_le_mul_right _ (by omega)
      have h2 : (2 ^ v - 1) * 2 ^ (g - v) = 2 ^ g - 2 ^ (g - v) := by
        rw [Nat.sub_mul, one_mul, Nat.mul_comm, two_pow_sub_mul hvg]
      omega
    · have hv0 : v = 0 := by omega
      have hlane0 : lane = 0 := by
        subst hv0
        simpa using hl
      subst hlane0
      simp
  rw [hv8]
  have hrem : (lane + (cycle * 2 ^ v + cycle / 2 ^ (g - 2 * v))) % 2 ^ (g - v)
      < 2 ^ (g - v) := Nat.mod_lt _ hSpos
  have hfits : lane * 2 ^ (g - v) ≤ 2 ^ g - 2 ^ (g - v) := by
    have h1 : lane * 2 ^ (g - v) ≤ (2 ^ v - 1) * 2 ^ (g - v) :=
      Nat.mul_le_mul_right _ (by omega)
    have h2 : (2 ^ v - 1) * 2 ^ (g - v) = 2 ^ g - 2 ^ (g - v) := by
      rw [Nat.sub_mul, one_mul, Nat.mul_comm, two_pow_sub_mul hvg]
    omega
  exact Nat.mod_eq_of_lt (by omega)

/-- Clean form of Algorithm B in the power-of-two regime n < vl², vl < 2^32. -/
theorem readB_eq (g v cycle lane : ℕ) (hvg : v ≤ g) (hg : g ≤ 32) (hB : g < 2 * v)
    (hc : cycle < 2 ^ (g - v)) (hl : lane < 2 ^ v) :
    readB (2 ^ g) (2 ^ v) cycle lane =
      lane / 2 ^ (2 * v - g) * 2 ^ v +
        (lane % 2 ^ (2 * v - g) * 2 ^ (g - v) + lane / 2 ^ (2 * v - g) + cycle)
          % 2 ^ v := by
  have hstride : (2 : ℕ) ^ g / 2 ^ v = 2 ^ (g - v) := Nat.pow_div hvg (by norm_num)
  have hKS : (2 : ℕ) ^ (2 * v - g) * 2 ^ (g - v) = 2 ^ v := by
    rw [← pow_add]
    congr 1
    omega
  have hSK : (2 : ℕ) ^ (g - v) * 2 ^ (2 * v - g) = 2 ^ v := by
    rw [← pow_add]
    congr 1
    omega
  have hKpos : 0 < (2 : ℕ) ^ (2 * v - g) := Nat.two_pow_pos _
  have hSpos : 0 < (2 : ℕ) ^ (g - v) := Nat.two_pow_pos _
  have hv32 : (2 : ℕ) ^ v ≤ 2 ^ 32 := Nat.pow_le_pow_right (by norm_num) (by omega)
  have hg32 : (2 : ℕ) ^ g ≤ 2 ^ 32 := Nat.pow_le_pow_right (by norm_num) hg
  have hvle : (2 : ℕ) ^ v ≤ 2 ^ g := Nat.pow_le_pow_right (by norm_num) hvg
  have hSvle : (2 : ℕ) ^ (g - v) ≤ 2 ^ v := Nat.pow_le_pow_right (by norm_num) (by omega)
  have hsec : lane / 2 ^ (2 * v - g) < 2 ^ (g - v) := by
    rw [Nat.div_lt_iff_lt_mul hKpos]
    calc lane < 2 ^ v := hl
    _ = 2 ^ (g - v) * 2 ^ (2 * v - g) := hSK.symm
  have hlow : lane % 2 ^ (2 * v - g) < 2 ^ (2 * v - g) := Nat.mod_lt _ hKpos
  have hv2' : lane % 2 ^ (2 * v - g) * 2 ^ (g - v) ≤ 2 ^ v - 2 ^ (g - v) := by
    have h1 : lane % 2 ^ (2 * v - g) * 2 ^ (g - v)
        ≤ (2 ^ (2 * v - g) - 1) * 2 ^ (g - v) := Nat.mul_le_mul_right _ (by omega)
    have h2 : ((2 : ℕ) ^ (2 * v - g) - 1) * 2 ^ (g - v) = 2 ^ v - 2 ^ (g - v) := by
      rw [Nat.sub_mul, one_mul, hKS]
    omega
  have hv8b : lane / 2 ^ (2 * v - g) * 2 ^ v ≤ 2 ^ g - 2 ^ v := by
    have h1 : lane / 2 ^ (2 * v - g) * 2 ^ v ≤ (2 ^ (g - v) - 1) * 2 ^ v :=
      Nat.mul_le_mul_right _ (by omega)
    have h2 : ((2 : ℕ) ^ (g - v) - 1) * 2 ^ v = 2 ^ g - 2 ^ v := by
      rw [Nat.sub_mul, one_mul, two_pow_sub_mul hvg]
    omega
  have hcyc32 : cycle < 2 ^ 32 := by
    have : (2 : ℕ) ^ (g - v) ≤ 2 ^ 32 := Nat.pow_le_pow_right (by norm_num) (by omega)
    omega
  simp only [readB, clog2_two_pow, hstride, Nat.shiftLeft_eq, one_mul,
    Nat.shiftRight_eq_div_pow]
  rw [Nat.mod_eq_of_lt (show (2 : ℕ) ^ (2 * v - g) - 1 < 2 ^ 32 by
      have : (2 : ℕ) ^ (2 * v - g) ≤ 2 ^ 32 :=
        Nat.pow_le_pow_right (by norm_num) (by omega)
      omega),
    Nat.and_pow_two_sub_one_eq_mod, Nat.mod_eq_of_lt hcyc32,
    Nat.mod_eq_of_lt (show (2 : ℕ) ^ v - 1 < 2 ^ 32 by omega),
    Nat.and_pow_two_sub_one_eq_mod]
  have hstr32 : (2 : ℕ) ^ (g - v) % 2 ^ 32 = 2 ^ (g - v) :=
    Nat.mod_eq_of_lt (Nat.pow_lt_pow_right (by norm_num) (by omega))
  rw [hstr32]
  have hv8eq : lane / 2 ^ (2 * v - g) * (2 ^ v % 2 ^ 32) % 2 ^ 32
      = lane / 2 ^ (2 * v - g) * 2 ^ v := by
    rcases Nat.lt_or_ge v 32 with h32 | h32
    · rw [Nat.mod_eq_of_lt (Nat.pow_lt_pow_right (by norm_num) h32)]
      apply Nat.mod_eq_of_lt
      omega
    · have hveq : v = 32 := by omega
      have hgeq : g = 32 := by omega
      have : lane / 2 ^ (2 * v - g) = 0 := by
        apply Nat.div_eq_of_lt
        calc lane < 2 ^ v := hl
        _ ≤ 2 ^ (2 * v - g) := Nat.pow_le_pow_right (by norm_num) (by omega)
      rw [this]
      simp
  rw [hv8eq]
  have hlow32 : lane % 2 ^ (2 * v - g) * 2 ^ (g - v) % 2 ^ 32
      = lane % 2 ^ (2 * v - g) * 2 ^ (g - v) := Nat.mod_eq_of_lt (by omega)
  rw [hlow32]
  have hv9 : (lane % 2 ^ (2 * v - g) * 2 ^ (g - v) + lane / 2 ^ (2 * v - g)) % 2 ^ 32
      = lane % 2 ^ (2 * v - g) * 2 ^ (g - v) + lane / 2 ^ (2 * v - g) :=
    Nat.mod_eq_of_lt (by omega)
  rw [hv9]
  have hsum32 : lane % 2 ^ (2 * v - g) * 2 ^ (g - v) + lane / 2 ^ (2 * v - g) + cycle
      < 2 ^ 32 := by
    rcases Nat.lt_or_ge v 32 with h32 | h32
    · have hx : (2 : ℕ) ^ v ≤ 2 ^ 31 := Nat.pow_le_pow_right (by norm_num) (by omega)
      have hy : (2 : ℕ) ^ (g - v) ≤ 2 ^ 31 :=
        Nat.pow_le_pow_right (by norm_num) (by omega)
      have : (2 : ℕ) ^ 31 + 2 ^ 31 = 2 ^ 32 := by norm_num
      omega
    · have hveq : v = 32 := by omega
      have hgeq : g = 32 := by omega
      have hcyc0 : cycle = 0 := by
        subst hveq hgeq
        simpa using hc
      omega
  rw [Nat.mod_eq_of_lt hsum32]
  apply Nat.mod_eq_of_lt
  have : (lane % 2 ^ (2 * v - g) * 2 ^ (g - v) + lane / 2 ^ (2 * v - g) + cycle)
      % 2 ^ v < 2 ^ v := Nat.mod_lt _ (Nat.two_pow_pos v)
  omega

/-! ## Permutation machinery -/

theorem exists_preimage_of_inj (n : ℕ) (F : ℕ → ℕ) (hmaps : ∀ p, p < n → F p < n)
    (hinj : ∀ p, p < n → ∀ q, q < n → F p = F q → p = q) :
    ∀ i, i < n → ∃ p, p < n ∧ F p = i := by
  intro i hi
  have himg : (Finset.range n).image F = Finset.range n := by
    apply Finset.eq_of_subset_of_card_le
    · intro x hx
      rcases Finset.mem_image.mp hx with ⟨p, hp, rfl⟩
      exact Finset.mem_range.mpr (hmaps p (Finset.mem_range.mp hp))
    · rw [Finset.card_image_of_injOn]
      intro p hp q hq hpq
      exact hinj p (by simpa using hp) q (by simpa using hq) hpq
  have h1 : i ∈ Finset.range n := Finset.mem_range.mpr hi
  rw [← himg] at h1
  rcases Finset.mem_image.mp h1 with ⟨p, hp, he⟩
  exact ⟨p, Finset.mem_range.mp hp, he⟩

theorem perm_range_of_bij (n : ℕ) (F : ℕ → ℕ) (hmaps : ∀ p, p < n → F p < n)
    (hinj : ∀ p, p < n → ∀ q, q < n → F p = F q → p = q) :
    ((List.range n).map F).Perm (List.range n) := by
  have hsurj := exists_preimage_of_inj n F hmaps hinj
  apply List.perm_of_nodup_nodup_toFinset_eq
  · exact List.Nodup.map_on
      (fun x hx y hy h => hinj x (List.mem_range.mp hx) y (List.mem_range.mp hy) h)
      (List.nodup_range n)
  · exact List.nodup_range n
  · apply Finset.ext
    intro a
    simp only [List.mem_toFinset, List.mem_map, List.mem_range]
    constructor
    · rintro ⟨p, hp, rfl⟩
      exact hmaps p hp
    · intro ha
      rcases hsurj a ha with ⟨p, hp, he⟩
      exact ⟨p, hp, he⟩

/-- The per-cycle phase offset of Algorithm A, reduced mod the stride. -/
theorem oA_mod (g v c : ℕ) (h2v : 2 * v ≤ g) (hc : c < 2 ^ (g - v)) :
    (c * 2 ^ v + c / 2 ^ (g - 2 * v)) % 2 ^ (g - v)
      = c % 2 ^ (g - 2 * v) * 2 ^ v + c / 2 ^ (g - 2 * v) := by
  have hMv : (2 : ℕ) ^ (g - 2 * v) * 2 ^ v = 2 ^ (g - v) := by
    rw [← pow_add]
    congr 1
    omega
  have hMpos : 0 < (2 : ℕ) ^ (g - 2 * v) := Nat.two_pow_pos _
  have hq : c / 2 ^ (g - 2 * v) < 2 ^ v := by
    rw [Nat.div_lt_iff_lt_mul hMpos]
    calc c < 2 ^ (g - v) := hc
    _ = 2 ^ v * 2 ^ (g - 2 * v) := by rw [Nat.mul_comm]; exact hMv.symm
  have hsmall : c % 2 ^ (g - 2 * v) * 2 ^ v + c / 2 ^ (g - 2 * v) < 2 ^ (g - v) := by
    have hr : c % 2 ^ (g - 2 * v) < 2 ^ (g - 2 * v) := Nat.mod_lt _ hMpos
    have h1 : c % 2 ^ (g - 2 * v) * 2 ^ v ≤ (2 ^ (g - 2 * v) - 1) * 2 ^ v :=
      Nat.mul_le_mul_right _ (by omega)
    have h2 : ((2 : ℕ) ^ (g - 2 * v) - 1) * 2 ^ v = 2 ^ (g - v) - 2 ^ v := by
      rw [Nat.sub_mul, one_mul, hMv]
    have h3 : (2 : ℕ) ^ v ≤ 2 ^ (g - v) :=
      Nat.pow_le_pow_right (by norm_num) (by omega)
    omega
  have hqr : 2 ^ (g - 2 * v) * (c / 2 ^ (g - 2 * v)) + c % 2 ^ (g - 2 * v) = c :=
    Nat.div_add_mod c (2 ^ (g - 2 * v))
  have hdecomp : c * 2 ^ v + c / 2 ^ (g - 2 * v)
      = 2 ^ (g - v) * (c / 2 ^ (g - 2 * v))
        + (c % 2 ^ (g - 2 * v) * 2 ^ v + c / 2 ^ (g - 2 * v)) := by
    nth_rewrite 1 [← hqr]
    rw [← hMv]
    ring
  rw [hdecomp, Nat.mul_add_mod, Nat.mod_eq_of_lt hsmall]

/-- Injectivity of the clean Algorithm A formula on (cycle, lane) pairs. -/
theorem cleanA_inj (g v c1 l1 c2 l2 : ℕ) (h2v : 2 * v ≤ g)
    (hc1 : c1 < 2 ^ (g - v)) (hl1 : l1 < 2 ^ v)
    (hc2 : c2 < 2 ^ (g - v)) (hl2 : l2 < 2 ^ v)
    (heq : l1 * 2 ^ (g - v) + (l1 + (c1 * 2 ^ v + c1 / 2 ^ (g - 2 * v))) % 2 ^ (g - v)
         = l2 * 2 ^ (g - v) + (l2 + (c2 * 2 ^ v + c2 / 2 ^ (g - 2 * v))) % 2 ^ (g - v)) :
    c1 = c2 ∧ l1 = l2 := by
  have hSpos : 0 < (2 : ℕ) ^ (g - v) := Nat.two_pow_pos _
  have hMpos : 0 < (2 : ℕ) ^ (g - 2 * v) := Nat.two_pow_pos _
  obtain ⟨hll, hrr⟩ := mul_add_lt_unique heq (Nat.mod_lt _ hSpos) (Nat.mod_lt _ hSpos)
  subst hll
  have hmod : (c1 * 2 ^ v + c1 / 2 ^ (g - 2 * v)) % 2 ^ (g - v)
      = (c2 * 2 ^ v + c2 / 2 ^ (g - 2 * v)) % 2 ^ (g - v) :=
    Nat.ModEq.add_left_cancel' l1 hrr
  rw [oA_mod g v c1 h2v hc1, oA_mod g v c2 h2v hc2] at hmod
  have hq1 : c1 / 2 ^ (g - 2 * v) < 2 ^ v := by
    rw [Nat.div_lt_iff_lt_mul hMpos]
    calc c1 < 2 ^ (g - v) := hc1
    _ = 2 ^ v * 2 ^ (g - 2 * v) := by
        rw [← pow_add]
        congr 1
        omega
  have hq2 : c2 / 2 ^ (g - 2 * v) < 2 ^ v := by
    rw [Nat.div_lt_iff_lt_mul hMpos]
    calc c2 < 2 ^ (g - v) := hc2
    _ = 2 ^ v * 2 ^ (g - 2 * v) := by
        rw [← pow_add]
        congr 1
        omega
  obtain ⟨hm, hd⟩ := mul_add_lt_unique hmod hq1 hq2
  have e1 := Nat.div_add_mod c1 (2 ^ (g - 2 * v))
  have e2 := Nat.div_add_mod c2 (2 ^ (g - 2 * v))
  have e3 : (2 : ℕ) ^ (g - 2 * v) * (c1 / 2 ^ (g - 2 * v))
      = 2 ^ (g - 2 * v) * (c2 / 2 ^ (g - 2 * v)) := by rw [hd]
  refine ⟨?_, rfl⟩
  omega

/-- Injectivity of the clean Algorithm B formula on (cycle, lane) pairs. -/
theorem cleanB_inj (g v c1 l1 c2 l2 : ℕ) (hvg : v ≤ g) (hB : g < 2 * v)
    (hc1 : c1 < 2 ^ (g - v)) (hl1 : l1 < 2 ^ v)
    (hc2 : c2 < 2 ^ (g - v)) (hl2 : l2 < 2 ^ v)
    (heq : l1 / 2 ^ (2 * v - g) * 2 ^ v +
             (l1 % 2 ^ (2 * v - g) * 2 ^ (g - v) + l1 / 2 ^ (2 * v - g) + c1) % 2 ^ v
         = l2 / 2 ^ (2 * v - g) * 2 ^ v +
             (l2 % 2 ^ (2 * v - g) * 2 ^ (g - v) + l2 / 2 ^ (2 * v - g) + c2) % 2 ^ v) :
    c1 = c2 ∧ l1 = l2 := by
  have hvpos : 0 < (2 : ℕ) ^ v := Nat.two_pow_pos _
  have hKpos : 0 < (2 : ℕ) ^ (2 * v - g) := Nat.two_pow_pos _
  have hSpos : 0 < (2 : ℕ) ^ (g - v) := Nat.two_pow_pos _
  have hKS : (2 : ℕ) ^ (2 * v - g) * 2 ^ (g - v) = 2 ^ v := by
    rw [← pow_add]
    congr 1
    omega
  obtain ⟨hsec, hw⟩ := mul_add_lt_unique heq (Nat.mod_lt _ hvpos) (Nat.mod_lt _ hvpos)
  rw [show l1 % 2 ^ (2 * v - g) * 2 ^ (g - v) + l1 / 2 ^ (2 * v - g) + c1
        = l1 / 2 ^ (2 * v - g) + (l1 % 2 ^ (2 * v - g) * 2 ^ (g - v) + c1) by ring,
      show l2 % 2 ^ (2 * v - g) * 2 ^ (g - v) + l2 / 2 ^ (2 * v - g) + c2
        = l2 / 2 ^ (2 * v - g) + (l2 % 2 ^ (2 * v - g) * 2 ^ (g - v) + c2) by ring,
      hsec] at hw
  have hw2 : (l1 % 2 ^ (2 * v - g) * 2 ^ (g - v) + c1) % 2 ^ v
      = (l2 % 2 ^ (2 * v - g) * 2 ^ (g - v) + c2) % 2 ^ v :=
    Nat.ModEq.add_left_cancel' _ hw
  have hbound : ∀ l c : ℕ, l < 2 ^ v → c < 2 ^ (g - v) →
      l % 2 ^ (2 * v - g) * 2 ^ (g - v) + c < 2 ^ v := by
    intro l c _ hcb
    have h1 : l % 2 ^ (2 * v - g) * 2 ^ (g - v) ≤ (2 ^ (2 * v - g) - 1) * 2 ^ (g - v) :=
      Nat.mul_le_mul_right _ (by
        have := Nat.mod_lt l hKpos
        omega)
    have h2 : ((2 : ℕ) ^ (2 * v - g) - 1) * 2 ^ (g - v) = 2 ^ v - 2 ^ (g - v) := by
      rw [Nat.sub_mul, one_mul, hKS]
    have h3 : (2 : ℕ) ^ (g - v) ≤ 2 ^ v :=
      Nat.pow_le_pow_right (by norm_num) (by omega)
    omega
  rw [Nat.mod_eq_of_lt (hbound l1 c1 hl1 hc1),
      Nat.mod_eq_of_lt (hbound l2 c2 hl2 hc2)] at hw2
  obtain ⟨hlow, hcc⟩ := mul_add_lt_unique hw2 hc1 hc2
  have e1 := Nat.div_add_mod l1 (2 ^ (2 * v - g))
  have e2 := Nat.div_add_mod l2 (2 ^ (2 * v - g))
  have e3 : (2 : ℕ) ^ (2 * v - g) * (l1 / 2 ^ (2 * v - g))
      = 2 ^ (2 * v - g) * (l2 / 2 ^ (2 * v - g)) := by rw [hsec]
  have e4 : l1 % 2 ^ (2 * v - g) * 2 ^ (g - v) = l2 % 2 ^ (2 * v - g) * 2 ^ (g - v) := by
    rw [hlow]
  have e5 : l1 % 2 ^ (2 * v - g) = l2 % 2 ^ (2 * v - g) := by
    have hSpos2 : 0 < (2 : ℕ) ^ (g - v) := Nat.two_pow_pos _
    exact Nat.eq_of_mul_eq_mul_right hSpos2 e4
  exact ⟨hcc, by omega⟩

/-- Range bound for the clean Algorithm A formula. -/
theorem cleanA_lt (g v cycle lane : ℕ) (hvg : v ≤ g) (hl : lane < 2 ^ v) :
    lane * 2 ^ (g - v) +
      (lane + (cycle * 2 ^ v + cycle / 2 ^ (g - 2 * v))) % 2 ^ (g - v) < 2 ^ g := by
  have hSpos : 0 < (2 : ℕ) ^ (g - v) := Nat.two_pow_pos _
  have h1 : lane * 2 ^ (g - v) ≤ (2 ^ v - 1) * 2 ^ (g - v) :=
    Nat.mul_le_mul_right _ (by omega)
  have h2 : ((2 : ℕ) ^ v - 1) * 2 ^ (g - v) = 2 ^ g - 2 ^ (g - v) := by
    rw [Nat.sub_mul, one_mul, Nat.mul_comm, two_pow_sub_mul hvg]
  have h3 : (2 : ℕ) ^ (g - v) ≤ 2 ^ g := Nat.pow_le_pow_right (by norm_num) (by omega)
  have h4 : (lane + (cycle * 2 ^ v + cycle / 2 ^ (g - 2 * v))) % 2 ^ (g - v)
      < 2 ^ (g - v) := Nat.mod_lt _ hSpos
  omega

/-- Range bound for the clean Algorithm B formula. -/
theorem cleanB_lt (g v cycle lane : ℕ) (hvg : v ≤ g) (hB : g < 2 * v)
    (hl : lane < 2 ^ v) :
    lane / 2 ^ (2 * v - g) * 2 ^ v +
      (lane % 2 ^ (2 * v - g) * 2 ^ (g - v) + lane / 2 ^ (2 * v - g) + cycle)
        % 2 ^ v < 2 ^ g := by
  have hvpos : 0 < (2 : ℕ) ^ v := Nat.two_pow_pos _
  have hKpos : 0 < (2 : ℕ) ^ (2 * v - g) := Nat.two_pow_pos _
  have hSK : (2 : ℕ) ^ (g - v) * 2 ^ (2 * v - g) = 2 ^ v := by
    rw [← pow_add]
    congr 1
    omega
  have hsec : lane / 2 ^ (2 * v - g) < 2 ^ (g - v) := by
    rw [Nat.div_lt_iff_lt_mul hKpos]
    calc lane < 2 ^ v := hl
    _ = 2 ^ (g - v) * 2 ^ (2 * v - g) := hSK.symm
  have h1 : lane / 2 ^ (2 * v - g) * 2 ^ v ≤ (2 ^ (g - v) - 1) * 2 ^ v :=
    Nat.mul_le_mul_right _ (by omega)
  have h2 : ((2 : ℕ) ^ (g - v) - 1) * 2 ^ v = 2 ^ g - 2 ^ v := by
    rw [Nat.sub_mul, one_mul, two_pow_sub_mul hvg]
  have h3 : (2 : ℕ) ^ v ≤ 2 ^ g := Nat.pow_le_pow_right (by norm_num) hvg
  have h4 : (lane % 2 ^ (2 * v - g) * 2 ^ (g - v) + lane / 2 ^ (2 * v - g) + cycle)
      % 2 ^ v < 2 ^ v := Nat.mod_lt _ hvpos
  omega

/-- Evaluation of the algorithm selector at powers of two. -/
theorem use_algo_a_iff (g v : ℕ) (hvg : v ≤ g) (hg : g ≤ 32) :
    use_algo_a (2 ^ g) (2 ^ v) = true ↔ 2 * v ≤ g ∨ v = 32 := by
  rw [use_algo_a, decide_eq_true_eq, ← pow_add]
  rcases Nat.lt_or_ge v 32 with h32 | h32
  · have hvv : v + v < 64 := by omega
    rw [Nat.mod_eq_of_lt (Nat.pow_lt_pow_right (by norm_num) hvv)]
    rw [Nat.pow_le_pow_iff_right (by norm_num : 1 < 2)]
    omega
  · have hveq : v = 32 := by omega
    subst hveq
    norm_num

/-- The read index buffer is a permutation of the range, for power-of-two
sizes fitting the 32-bit index convention, with vl < 2^32 so that the
division-by-zero corner n = vl = 2^32 of the C code is excluded. -/
theorem read_perm (g v : ℕ) (hvg : v ≤ g) (hg : g ≤ 32) (hv : v < 32) :
    (read_idx (2 ^ g) (2 ^ v)).Perm (List.range (2 ^ g)) := by
  have hvpos : 0 < (2 : ℕ) ^ v := Nat.two_pow_pos v
  have hSv : (2 : ℕ) ^ (g - v) * 2 ^ v = 2 ^ g := two_pow_sub_mul hvg
  have hnd : (2 : ℕ) ^ g / 2 ^ v = 2 ^ (g - v) := Nat.pow_div hvg (by norm_num)
  have hnn : (2 : ℕ) ^ g / 2 ^ v * 2 ^ v = 2 ^ g := by rw [hnd, hSv]
  rw [read_idx_eq, hnn]
  have hpos : ∀ p : ℕ, p < 2 ^ g → p / 2 ^ v < 2 ^ (g - v) ∧ p % 2 ^ v < 2 ^ v := by
    intro p hp
    refine ⟨?_, Nat.mod_lt _ hvpos⟩
    rw [Nat.div_lt_iff_lt_mul hvpos]
    calc p < 2 ^ g := hp
    _ = 2 ^ (g - v) * 2 ^ v := hSv.symm
  by_cases hA : 2 * v ≤ g
  · have halgo : use_algo_a (2 ^ g) (2 ^ v) = true :=
      (use_algo_a_iff g v hvg hg).mpr (Or.inl hA)
    apply perm_range_of_bij
    · intro p hp
      rw [if_pos halgo, readA_eq g v _ _ hg hA (hpos p hp).1 (hpos p hp).2]
      exact cleanA_lt g v _ _ hvg (hpos p hp).2
    · intro p hp q hq hFeq
      rw [if_pos halgo, if_pos halgo,
        readA_eq g v _ _ hg hA (hpos p hp).1 (hpos p hp).2,
        readA_eq g v _ _ hg hA (hpos q hq).1 (hpos q hq).2] at hFeq
      obtain ⟨hc, hl⟩ := cleanA_inj g v (p / 2 ^ v) (p % 2 ^ v) (q / 2 ^ v) (q % 2 ^ v)
        hA (hpos p hp).1 (hpos p hp).2 (hpos q hq).1 (hpos q hq).2 hFeq
      have e1 := Nat.div_add_mod p (2 ^ v)
      have e2 := Nat.div_add_mod q (2 ^ v)
      have e3 : (2 : ℕ) ^ v * (p / 2 ^ v) = 2 ^ v * (q / 2 ^ v) := by rw [hc]
      omega
  · push_neg at hA
    · have halgo : use_algo_a (2 ^ g) (2 ^ v) = false := by
        cases hcase : use_algo_a (2 ^ g) (2 ^ v)
        · rfl
        · exfalso
          rcases (use_algo_a_iff g v hvg hg).mp hcase with h | h
          · omega
          · omega
      have hneg : ¬(use_algo_a (2 ^ g) (2 ^ v) = true) := by simp [halgo]
      apply perm_range_of_bij
      · intro p hp
        rw [if_neg hneg, readB_eq g v _ _ hvg hg hA (hpos p hp).1 (hpos p hp).2]
        exact cleanB_lt g v _ _ hvg hA (hpos p hp).2
      · intro p hp q hq hFeq
        rw [if_neg hneg, if_neg hneg,
          readB_eq g v _ _ hvg hg hA (hpos p hp).1 (hpos p hp).2,
          readB_eq g v _ _ hvg hg hA (hpos q hq).1 (hpos q hq).2] at hFeq
        obtain ⟨hc, hl⟩ := cleanB_inj g v (p / 2 ^ v) (p % 2 ^ v) (q / 2 ^ v) (q % 2 ^ v)
          hvg hA (hpos p hp).1 (hpos p hp).2 (hpos q hq).1 (hpos q hq).2 hFeq
        have e1 := Nat.div_add_mod p (2 ^ v)
        have e2 := Nat.div_add_mod q (2 ^ v)
        have e3 : (2 : ℕ) ^ v * (p / 2 ^ v) = 2 ^ v * (q / 2 ^ v) := by rw [hc]
        omega

/-! ## Bit reversal lemmas (for the spec-modelled bitreverse_vec) -/

theorem revBits_lt (x w : ℕ) : revBits x w < 2 ^ w := by
  induction w generalizing x with
  | zero => simp [revBits]
  | succ w ih =>
    have h2 : x % 2 ≤ 1 := by omega
    have hr := ih (x / 2)
    have h3 : x % 2 * 2 ^ w ≤ 2 ^ w := by
      calc x % 2 * 2 ^ w ≤ 1 * 2 ^ w := Nat.mul_le_mul_right _ h2
      _ = 2 ^ w := one_mul _
    have hp : (2 : ℕ) ^ (w + 1) = 2 ^ w + 2 ^ w := by ring
    simp only [revBits]
    omega

theorem revBits_inj (w : ℕ) : ∀ x y, revBits x w = revBits y w →
    x % 2 ^ w = y % 2 ^ w := by
  induction w with
  | zero => intro x y _; omega
  | succ w ih =>
    intro x y h
    simp only [revBits] at h
    obtain ⟨hb, hr⟩ := mul_add_lt_unique h (revBits_lt (x / 2) w) (revBits_lt (y / 2) w)
    have h3 := ih (x / 2) (y / 2) hr
    have hx : x % 2 ^ (w + 1) = x % 2 + 2 * (x / 2 % 2 ^ w) := by
      rw [show (2 : ℕ) ^ (w + 1) = 2 * 2 ^ w by ring, Nat.mod_mul]
    have hy : y % 2 ^ (w + 1) = y % 2 + 2 * (y / 2 % 2 ^ w) := by
      rw [show (2 : ℕ) ^ (w + 1) = 2 * 2 ^ w by ring, Nat.mod_mul]
    omega

theorem bitreverse_small (x w : ℕ) (hx : x < 2 ^ w) :
    bitreverse x w = revBits x w := by
  rw [bitreverse, Nat.shiftRight_eq_div_pow, Nat.div_eq_of_lt hx]
  simp [Nat.shiftLeft_eq]

/-- The write index buffer is a permutation of the range, for power-of-two
sizes fitting the 32-bit index convention. -/
theorem write_perm (g v : ℕ) (hvg : v ≤ g) (hg : g ≤ 32) (hv : v < 32) :
    (write_idx (2 ^ g) (2 ^ v)).Perm (List.range (2 ^ g)) := by
  have hr := read_perm g v hvg hg hv
  rw [write_idx, clog2_two_pow]
  have h1 : ((read_idx (2 ^ g) (2 ^ v)).map fun x => bitreverse x g).Perm
      ((List.range (2 ^ g)).map fun x => bitreverse x g) := hr.map _
  refine h1.trans ?_
  apply perm_range_of_bij
  · intro p hp
    rw [bitreverse_small p g hp]
    exact revBits_lt p g
  · intro p hp q hq he
    rw [bitreverse_small p g hp, bitreverse_small q g hq] at he
    have h2 := revBits_inj g p q he
    rw [Nat.mod_eq_of_lt hp, Nat.mod_eq_of_lt hq] at h2
    exact h2

/-! ## Claim C1 -/

/-- C1 counterexample: for n = 2^33 and vl = 2 (powers of two, vl ≤ n, both
representable as size_t, no undefined behaviour on this input) the read_idx
buffer is not a permutation of [0, n): every stored value is a 32-bit
quantity produced by the e32 vector ops, so the index 2^32 never appears. -/
theorem c1_counterexample :
    ¬ (read_idx (2 ^ 33) 2).Perm (List.range (2 ^ 33)) := by
  intro hperm
  have hmem : (2 ^ 32 : ℕ) ∈ read_idx (2 ^ 33) 2 :=
    hperm.mem_iff.mpr (List.mem_range.mpr (by norm_num))
  rw [read_idx] at hmem
  rcases List.mem_flatMap.mp hmem with ⟨c, _hc, hc2⟩
  rcases List.mem_map.mp hc2 with ⟨l, _hl, hval⟩
  have hlt : (if use_algo_a (2 ^ 33) 2 then readA (2 ^ 33) 2 c l
      else readB (2 ^ 33) 2 c l) < 2 ^ 32 := by
    split
    · simp only [readA]
      exact Nat.mod_lt _ (by norm_num)
    · simp only [readB]
      exact Nat.mod_lt _ (by norm_num)
  rw [hval] at hlt
  exact absurd hlt (by norm_num)

/-- C1 (amended): for all powers of two n = 2^g and vl = 2^v with vl ≤ n,
n ≤ 2^32 (the 32-bit index convention of the generated buffers) and
vl < 2^32 (excluding the corner n = vl = 2^32, where the C code divides by
zero), both the read_idx and the write_idx buffer produced by
compute_indices are permutations of [0, n). -/
theorem c1_read_write_permutation (g v : ℕ) (hvg : v ≤ g) (hg : g ≤ 32)
    (hv : v < 32) :
    ((compute_indices (2 ^ g) (2 ^ v)).1).Perm (List.range (2 ^ g)) ∧
    ((compute_indices (2 ^ g) (2 ^ v)).2).Perm (List.range (2 ^ g)) :=
  ⟨read_perm g v hvg hg hv, write_perm g v hvg hg hv⟩

theorem c1_read_write_permutation_witness :
    ((compute_indices (2 ^ 6) (2 ^ 3)).1).Perm (List.range (2 ^ 6)) ∧
    ((compute_indices (2 ^ 6) (2 ^ 3)).2).Perm (List.range (2 ^ 6)) :=
  c1_read_write_permutation 6 3 (by norm_num) (by norm_num) (by norm_num)

/-! ## Claim C2 -/

/-- C2: every position of the write_idx buffer is the bitreverse of the
corresponding read_idx position at the default width clog2 n, and the
modelled bitreverse reverses only the low w bits while the high bits pass
through unchanged. -/
theorem c2_write_is_bitreverse (n vl p : ℕ) :
    (write_idx n vl)[p]? =
      ((read_idx n vl)[p]?).map (fun x => bitreverse x (clog2 n)) ∧
    (∀ x w : ℕ, bitreverse x w % 2 ^ w = revBits x w ∧
      bitreverse x w / 2 ^ w = x / 2 ^ w) := by
  refine ⟨by rw [write_idx, List.getElem?_map], ?_⟩
  intro x w
  have hr := revBits_lt x w
  have hpw : 0 < (2 : ℕ) ^ w := Nat.two_pow_pos w
  have hb : bitreverse x w = x / 2 ^ w * 2 ^ w + revBits x w := by
    rw [bitreverse, Nat.shiftRight_eq_div_pow, Nat.shiftLeft_eq]
  constructor
  · rw [hb, Nat.mul_comm (x / 2 ^ w) (2 ^ w), Nat.mul_add_mod, Nat.mod_eq_of_lt hr]
  · rw [hb, Nat.mul_comm (x / 2 ^ w) (2 ^ w), Nat.mul_add_div hpw,
      Nat.div_eq_of_lt hr]
    omega

/-! ## Claim C3 -/

/-- C3 counterexample: at n = 32, vl = 2, vector step cycle = 1, lane = 0
(position 2) the produced read index is 2, while the claimed formula
stride·((lane + offset) & stride_mask) + offset_base evaluates to
32 + offset_base, which cannot equal 2 for any offset_base. -/
theorem c3_counterexample :
    ¬ ∃ offset_base : ℕ, (read_idx 32 2)[1 * 2 + 0]? =
      some (32 / 2 * ((0 + (1 * 2 + 1 / (32 / 2 / 2))) &&& (32 / 2 - 1)) + offset_base) := by
  rintro ⟨ob, h⟩
  have h2 : (read_idx 32 2)[1 * 2 + 0]? = some 2 := by decide
  have h3 : 32 / 2 * ((0 + (1 * 2 + 1 / (32 / 2 / 2))) &&& (32 / 2 - 1)) = 32 := by decide
  rw [h2, h3] at h
  have h4 := Option.some.inj h
  omega

/-- C3 (amended): in the n ≥ vl² regime (powers of two, n ≤ 2^32) the read
index at position cycle·vl + lane is stride·lane + ((lane + offset) &
stride_mask) with offset = cycle·vl + cycle / middle_size, i.e. the stride
multiplies the lane id, not the masked term, and the phase enters through
the mask. -/
theorem c3_amended_read_formula (g v cycle lane : ℕ) (hg : g ≤ 32) (h2v : 2 * v ≤ g)
    (hc : cycle < 2 ^ (g - v)) (hl : lane < 2 ^ v) :
    (read_idx (2 ^ g) (2 ^ v))[cycle * 2 ^ v + lane]? =
      some (2 ^ (g - v) * lane +
        ((lane + (cycle * 2 ^ v + cycle / 2 ^ (g - 2 * v))) &&& (2 ^ (g - v) - 1))) := by
  have hvg : v ≤ g := by omega
  have hvpos : 0 < (2 : ℕ) ^ v := Nat.two_pow_pos v
  have hSv : (2 : ℕ) ^ (g - v) * 2 ^ v = 2 ^ g := two_pow_sub_mul hvg
  have hnn : (2 : ℕ) ^ g / 2 ^ v * 2 ^ v = 2 ^ g := by
    rw [Nat.pow_div hvg (by norm_num), hSv]
  have hp : cycle * 2 ^ v + lane < 2 ^ g / 2 ^ v * 2 ^ v := by
    rw [hnn]
    have h1 : cycle * 2 ^ v ≤ (2 ^ (g - v) - 1) * 2 ^ v :=
      Nat.mul_le_mul_right _ (by omega)
    have h2 : ((2 : ℕ) ^ (g - v) - 1) * 2 ^ v = 2 ^ g - 2 ^ v := by
      rw [Nat.sub_mul, one_mul, hSv]
    have h3 : (2 : ℕ) ^ v ≤ 2 ^ g := Nat.pow_le_pow_right (by norm_num) hvg
    omega
  rw [read_idx_eq, List.getElem?_map, List.getElem?_range hp, Option.map_some']
  have hdiv : (cycle * 2 ^ v + lane) / 2 ^ v = cycle := by
    rw [Nat.mul_comm cycle (2 ^ v), Nat.mul_add_div hvpos, Nat.div_eq_of_lt hl]
    omega
  have hmod : (cycle * 2 ^ v + lane) % 2 ^ v = lane := by
    rw [Nat.mul_comm cycle (2 ^ v), Nat.mul_add_mod, Nat.mod_eq_of_lt hl]
  have halgo : use_algo_a (2 ^ g) (2 ^ v) = true :=
    (use_algo_a_iff g v hvg hg).mpr (Or.inl h2v)
  rw [hdiv, hmod, if_pos halgo, readA_eq g v cycle lane hg h2v hc hl,
    Nat.and_pow_two_sub_one_eq_mod, Nat.mul_comm (2 ^ (g - v)) lane]

theorem c3_amended_read_formula_witness :
    (read_idx (2 ^ 5) (2 ^ 1))[0 * 2 ^ 1 + 1]? =
      some (2 ^ (5 - 1) * 1 +
        ((1 + (0 * 2 ^ 1 + 0 / 2 ^ (5 - 2 * 1))) &&& (2 ^ (5 - 1) - 1))) :=
  c3_amended_read_formula 5 1 0 1 (by norm_num) (by norm_num) (by norm_num) (by norm_num)

/-! ## Claim C4 -/

/-- C4 counterexample: at n = 16, vl = 8, cycle = 0, lane = 4 the produced
read index is 9, while the claim's recombination section·stride + low with
cycle added and masked by vl_mask evaluates to 2. -/
theorem c4_counterexample :
    ¬ (read_idx 16 8)[0 * 8 + 4]? =
      some ((4 >>> 2 * (16 / 8) + (4 &&& (2 ^ 2 - 1)) + 0) &&& (8 - 1)) := by
  intro h
  have h2 : (read_idx 16 8)[0 * 8 + 4]? = some 9 := by
    simp only [read_idx, readB, use_algo_a, clog2_sixteen, clog2_eight]
    decide
  have h3 := h2.symm.trans h
  have h4 : (4 >>> 2 * (16 / 8) + (4 &&& (2 ^ 2 - 1)) + 0) &&& (8 - 1) = 2 := by decide
  rw [h4] at h3
  have h5 := Option.some.inj h3
  omega

/-- C4 (amended): in the n < vl² regime (powers of two, vl ≤ n ≤ 2^32,
vl < 2^32) compute_indices splits lane into section = lane >> log2_section
and low = lane & section_mask, recombines them as low·stride + section (the
low part times the stride plus the section number), and the read index for
step cycle is section·vl + ((low·stride + section + cycle) & vl_mask). -/
theorem c4_amended_read_formula (g v cycle lane : ℕ) (hvg : v ≤ g) (hg : g ≤ 32)
    (hB : g < 2 * v) (hv : v < 32) (hc : cycle < 2 ^ (g - v)) (hl : lane < 2 ^ v) :
    (read_idx (2 ^ g) (2 ^ v))[cycle * 2 ^ v + lane]? =
      some (lane >>> (2 * v - g) * 2 ^ v +
        (((lane &&& (2 ^ (2 * v - g) - 1)) * 2 ^ (g - v) + lane >>> (2 * v - g) + cycle)
          &&& (2 ^ v - 1))) := by
  have hvpos : 0 < (2 : ℕ) ^ v := Nat.two_pow_pos v
  have hSv : (2 : ℕ) ^ (g - v) * 2 ^ v = 2 ^ g := two_pow_sub_mul hvg
  have hnn : (2 : ℕ) ^ g / 2 ^ v * 2 ^ v = 2 ^ g := by
    rw [Nat.pow_div hvg (by norm_num), hSv]
  have hp : cycle * 2 ^ v + lane < 2 ^ g / 2 ^ v * 2 ^ v := by
    rw [hnn]
    have h1 : cycle * 2 ^ v ≤ (2 ^ (g - v) - 1) * 2 ^ v :=
      Nat.mul_le_mul_right _ (by omega)
    have h2 : ((2 : ℕ) ^ (g - v) - 1) * 2 ^ v = 2 ^ g - 2 ^ v := by
      rw [Nat.sub_mul, one_mul, hSv]
    have h3 : (2 : ℕ) ^ v ≤ 2 ^ g := Nat.pow_le_pow_right (by norm_num) hvg
    omega
  rw [read_idx_eq, List.getElem?_map, List.getElem?_range hp, Option.map_some']
  have hdiv : (cycle * 2 ^ v + lane) / 2 ^ v = cycle := by
    rw [Nat.mul_comm cycle (2 ^ v), Nat.mul_add_div hvpos, Nat.div_eq_of_lt hl]
    omega
  have hmod : (cycle * 2 ^ v + lane) % 2 ^ v = lane := by
    rw [Nat.mul_comm cycle (2 ^ v), Nat.mul_add_mod, Nat.mod_eq_of_lt hl]
  have halgo : use_algo_a (2 ^ g) (2 ^ v) = false := by
    cases hcase : use_algo_a (2 ^ g) (2 ^ v)
    · rfl
    · exfalso
      rcases (use_algo_a_iff g v hvg hg).mp hcase with h | h
      · omega
      · omega
  have hneg : ¬(use_algo_a (2 ^ g) (2 ^ v) = true) := by simp [halgo]
  rw [hdiv, hmod, if_neg hneg, readB_eq g v cycle lane hvg hg hB hc hl,
    Nat.and_pow_two_sub_one_eq_mod, Nat.and_pow_two_sub_one_eq_mod,
    Nat.shiftRight_eq_div_pow]

theorem c4_amended_read_formula_witness :
    (read_idx (2 ^ 4) (2 ^ 3))[0 * 2 ^ 3 + 4]? =
      some (4 >>> (2 * 3 - 4) * 2 ^ 3 +
        (((4 &&& (2 ^ (2 * 3 - 4) - 1)) * 2 ^ (4 - 3) + 4 >>> (2 * 3 - 4) + 0)
          &&& (2 ^ 3 - 1))) :=
  c4_amended_read_formula 4 3 0 4 (by norm_num) (by norm_num) (by norm_num)
    (by norm_num) (by norm_num) (by norm_num)

/-! ## Claim C5 -/

/-- C5: the regime comparison of compute_indices is inclusive: when n equals
vl² exactly Algorithm A is selected, and Algorithm B is selected only when
n < vl². -/
theorem c5_algorithm_boundary (n vl : ℕ) :
    (vl * vl = n → use_algo_a n vl = true) ∧
    (use_algo_a n vl = false → n < vl * vl) := by
  constructor
  · intro h
    rw [use_algo_a, decide_eq_true_eq, h]
    exact Nat.mod_le n (2 ^ 64)
  · intro h
    rw [use_algo_a] at h
    have h2 : ¬(vl * vl % 2 ^ 64 ≤ n) := of_decide_eq_false h
    have h3 : vl * vl % 2 ^ 64 ≤ vl * vl := Nat.mod_le _ _
    omega

theorem c5_algorithm_boundary_witness : use_algo_a 4 2 = true :=
  (c5_algorithm_boundary 4 2).1 rfl

/-! ## Claim C9 -/

/-- C9: for n = 8, vl = 8 compute_indices performs one vector step and
produces read_idx = [0..7] and write_idx = bitreverse([0..7], 3)
= [0, 4, 2, 6, 1, 5, 3, 7]. -/
theorem c9_concrete_n8_vl8 :
    compute_indices 8 8 = ([0, 1, 2, 3, 4, 5, 6, 7], [0, 4, 2, 6, 1, 5, 3, 7]) := by
  simp only [compute_indices, read_idx, write_idx, readB, use_algo_a, clog2_eight]
  decide

/-! ## Allocator step and run lemmas -/

theorem allocPool_eq (sz brk limit : ℕ) (hb32 : brk % 32 = 0) (hbl : brk ≤ limit)
    (hlim : limit < 2 ^ 32) (hsz : sz < 2 ^ 63 + 32) :
    allocPool sz brk limit =
      if limit < brk + sz then Except.error 2 else Except.ok (brk, brk + sz) := by
  have h1 : alignUp brk = brk := alignUp_of_aligned brk (by omega) hb32
  simp only [allocPool, h1, Nat.mod_eq_of_lt (show brk + sz < 2 ^ 64 by omega)]

theorem poolBase_le_brk (w : ℤ) (s : AllocState) (hw : validWidth w)
    (hinv : allocInv s) : poolBase w ≤ poolBrk w s := by
  obtain ⟨⟨a1, _, _⟩, ⟨a8, _, _⟩, ⟨a16, _, _⟩, ⟨a32, _, _⟩, ⟨a64, _, _⟩⟩ := hinv
  rcases hw with rfl | rfl | rfl | rfl | rfl <;> assumption

/-- One vpu_alloc call from an invariant-satisfying state, with a request
size small enough that the size_t arithmetic cannot wrap. -/
theorem vpu_alloc_step (size : ℕ) (w : ℤ) (s : AllocState) (hw : validWidth w)
    (hsz : size < 2 ^ 63) (hinv : allocInv s) :
    (poolBase w + VPU_POOL_SIZE < poolBrk w s + alignUp size →
      vpu_alloc size w s = .error 2) ∧
    (∀ p s', vpu_alloc size w s = .ok (p, s') →
      p = poolBrk w s ∧ p % 32 = 0 ∧
      poolBrk w s' = poolBrk w s + alignUp size ∧
      poolBrk w s' ≤ poolBase w + VPU_POOL_SIZE ∧
      (∀ w', validWidth w' → w' ≠ w → poolBrk w' s' = poolBrk w' s) ∧
      allocInv s') := by
  have hsp : size + 31 < 2 ^ 64 := by omega
  have hszle := alignUp_le size hsp
  have hsz32 := alignUp_mod size
  obtain ⟨⟨ha1, hb1, hq1⟩, ⟨ha8, hb8, hq8⟩, ⟨ha16, hb16, hq16⟩,
    ⟨ha32, hb32, hq32⟩, ⟨ha64, hb64, hq64⟩⟩ := hinv
  have hc1 : s.brk_1 % 32 = 0 := hq1
  have hc8 : s.brk_8 % 32 = 0 := hq8
  have hc16 : s.brk_16 % 32 = 0 := hq16
  have hc32 : s.brk_32 % 32 = 0 := hq32
  have hc64 : s.brk_64 % 32 = 0 := hq64
  rcases hw with rfl | rfl | rfl | rfl | rfl
  · have hbrk : poolBrk 1 s = s.brk_1 := rfl
    have hbase : poolBase 1 = VPU_BASE_1 := rfl
    have hmask : s.brk_1 % 32 = 0 := hc1
    have hlim : VPU_BASE_1 + VPU_POOL_SIZE < 2 ^ 32 := by
      norm_num [VPU_BASE_1, VPU_POOL_SIZE]
    have key := allocPool_eq (alignUp size) s.brk_1 (VPU_BASE_1 + VPU_POOL_SIZE)
      hmask hb1 hlim (by omega)
    have hun : vpu_alloc size 1 s =
        (allocPool (alignUp size) s.brk_1 (VPU_BASE_1 + VPU_POOL_SIZE)).map
          fun pb => (pb.1, { s with brk_1 := pb.2 }) := by
      simp only [vpu_alloc]
      norm_num
    rw [hbrk, hbase, hun, key]
    constructor
    · intro hover
      rw [if_pos hover]
      rfl
    · intro p s' hok
      by_cases hover : VPU_BASE_1 + VPU_POOL_SIZE < s.brk_1 + alignUp size
      · rw [if_pos hover] at hok
        exact absurd hok (by simp [Except.map])
      · rw [if_neg hover] at hok
        simp only [Except.map] at hok
        rw [Except.ok.injEq, Prod.mk.injEq] at hok
        obtain ⟨hp, hs⟩ := hok
        subst hp
        subst hs
        refine ⟨rfl, hmask, rfl, ?_, ?_, ?_⟩
        · exact show s.brk_1 + alignUp size ≤ VPU_BASE_1 + VPU_POOL_SIZE by omega
        · intro w' hw' hne
          rcases hw' with rfl | rfl | rfl | rfl | rfl <;>
            first
            | rfl
            | exact absurd rfl hne
        · simp only [allocInv, poolInv, ALIGNMENT, N_LANES, WORD_WIDTH]
          refine ⟨⟨?_, ?_, ?_⟩, ⟨?_, ?_, ?_⟩, ⟨?_, ?_, ?_⟩, ⟨?_, ?_, ?_⟩,
            ⟨?_, ?_, ?_⟩⟩ <;> omega
  · have hbrk : poolBrk 8 s = s.brk_8 := rfl
    have hbase : poolBase 8 = VPU_BASE_8 := rfl
    have hmask : s.brk_8 % 32 = 0 := hc8
    have hlim : VPU_BASE_8 + VPU_POOL_SIZE < 2 ^ 32 := by
      norm_num [VPU_BASE_8, VPU_POOL_SIZE]
    have key := allocPool_eq (alignUp size) s.brk_8 (VPU_BASE_8 + VPU_POOL_SIZE)
      hmask hb8 hlim (by omega)
    have hun : vpu_alloc size 8 s =
        (allocPool (alignUp size) s.brk_8 (VPU_BASE_8 + VPU_POOL_SIZE)).map
          fun pb => (pb.1, { s with brk_8 := pb.2 }) := by
      simp only [vpu_alloc]
      norm_num
    rw [hbrk, hbase, hun, key]
    constructor
    · intro hover
      rw [if_pos hover]
      rfl
    · intro p s' hok
      by_cases hover : VPU_BASE_8 + VPU_POOL_SIZE < s.brk_8 + alignUp size
      · rw [if_pos hover] at hok
        exact absurd hok (by simp [Except.map])
      · rw [if_neg hover] at hok
        simp only [Except.map] at hok
        rw [Except.ok.injEq, Prod.mk.injEq] at hok
        obtain ⟨hp, hs⟩ := hok
        subst hp
        subst hs
        refine ⟨rfl, hmask, rfl, ?_, ?_, ?_⟩
        · exact show s.brk_8 + alignUp size ≤ VPU_BASE_8 + VPU_POOL_SIZE by omega
        · intro w' hw' hne
          rcases hw' with rfl | rfl | rfl | rfl | rfl <;>
            first
            | rfl
            | exact absurd rfl hne
        · simp only [allocInv, poolInv, ALIGNMENT, N_LANES, WORD_WIDTH]
          refine ⟨⟨?_, ?_, ?_⟩, ⟨?_, ?_, ?_⟩, ⟨?_, ?_, ?_⟩, ⟨?_, ?_, ?_⟩,
            ⟨?_, ?_, ?_⟩⟩ <;> omega
  · have hbrk : poolBrk 16 s = s.brk_16 := rfl
    have hbase : poolBase 16 = VPU_BASE_16 := rfl
    have hmask : s.brk_16 % 32 = 0 := hc16
    have hlim : VPU_BASE_16 + VPU_POOL_SIZE < 2 ^ 32 := by
      norm_num [VPU_BASE_16, VPU_POOL_SIZE]
    have key := allocPool_eq (alignUp size) s.brk_16 (VPU_BASE_16 + VPU_POOL_SIZE)
      hmask hb16 hlim (by omega)
    have hun : vpu_alloc size 16 s =
        (allocPool (alignUp size) s.brk_16 (VPU_BASE_16 + VPU_POOL_SIZE)).map
          fun pb => (pb.1, { s with brk_16 := pb.2 }) := by
      simp only [vpu_alloc]
      norm_num
    rw [hbrk, hbase, hun, key]
    constructor
    · intro hover
      rw [if_pos hover]
      rfl
    · intro p s' hok
      by_cases hover : VPU_BASE_16 + VPU_POOL_SIZE < s.brk_16 + alignUp size
      · rw [if_pos hover] at hok
        exact absurd hok (by simp [Except.map])
      · rw [if_neg hover] at hok
        simp only [Except.map] at hok
        rw [Except.ok.injEq, Prod.mk.injEq] at hok
        obtain ⟨hp, hs⟩ := hok
        subst hp
        subst hs
        refine ⟨rfl, hmask, rfl, ?_, ?_, ?_⟩
        · exact show s.brk_16 + alignUp size ≤ VPU_BASE_16 + VPU_POOL_SIZE by omega
        · intro w' hw' hne
          rcases hw' with rfl | rfl | rfl | rfl | rfl <;>
            first
            | rfl
            | exact absurd rfl hne
        · simp only [allocInv, poolInv, ALIGNMENT, N_LANES, WORD_WIDTH]
          refine ⟨⟨?_, ?_, ?_⟩, ⟨?_, ?_, ?_⟩, ⟨?_, ?_, ?_⟩, ⟨?_, ?_, ?_⟩,
            ⟨?_, ?_, ?_⟩⟩ <;> omega
  · have hbrk : poolBrk 32 s = s.brk_32 := rfl
    have hbase : poolBase 32 = VPU_BASE_32 := rfl
    have hmask : s.brk_32 % 32 = 0 := hc32
    have hlim : VPU_BASE_32 + VPU_POOL_SIZE < 2 ^ 32 := by
      norm_num [VPU_BASE_32, VPU_POOL_SIZE]
    have key := allocPool_eq (alignUp size) s.brk_32 (VPU_BASE_32 + VPU_POOL_SIZE)
      hmask hb32 hlim (by omega)
    have hun : vpu_alloc size 32 s =
        (allocPool (alignUp size) s.brk_32 (VPU_BASE_32 + VPU_POOL_SIZE)).map
          fun pb => (pb.1, { s with brk_32 := pb.2 }) := by
      simp only [vpu_alloc]
      norm_num
    rw [hbrk, hbase, hun, key]
    constructor
    · intro hover
      rw [if_pos hover]
      rfl
    · intro p s' hok
      by_cases hover : VPU_BASE_32 + VPU_POOL_SIZE < s.brk_32 + alignUp size
      · rw [if_pos hover] at hok
        exact absurd hok (by simp [Except.map])
      · rw [if_neg hover] at hok
        simp only [Except.map] at hok
        rw [Except.ok.injEq, Prod.mk.injEq] at hok
        obtain ⟨hp, hs⟩ := hok
        subst hp
        subst hs
        refine ⟨rfl, hmask, rfl, ?_, ?_, ?_⟩
        · exact show s.brk_32 + alignUp size ≤ VPU_BASE_32 + VPU_POOL_SIZE by omega
        · intro w' hw' hne
          rcases hw' with rfl | rfl | rfl | rfl | rfl <;>
            first
            | rfl
            | exact absurd rfl hne
        · simp only [allocInv, poolInv, ALIGNMENT, N_LANES, WORD_WIDTH]
          refine ⟨⟨?_, ?_, ?_⟩, ⟨?_, ?_, ?_⟩, ⟨?_, ?_, ?_⟩, ⟨?_, ?_, ?_⟩,
            ⟨?_, ?_, ?_⟩⟩ <;> omega
  · have hbrk : poolBrk 64 s = s.brk_64 := rfl
    have hbase : poolBase 64 = VPU_BASE_64 := rfl
    have hmask : s.brk_64 % 32 = 0 := hc64
    have hlim : VPU_BASE_64 + VPU_POOL_SIZE < 2 ^ 32 := by
      norm_num [VPU_BASE_64, VPU_POOL_SIZE]
    have key := allocPool_eq (alignUp size) s.brk_64 (VPU_BASE_64 + VPU_POOL_SIZE)
      hmask hb64 hlim (by omega)
    have hun : vpu_alloc size 64 s =
        (allocPool (alignUp size) s.brk_64 (VPU_BASE_64 + VPU_POOL_SIZE)).map
          fun pb => (pb.1, { s with brk_64 := pb.2 }) := by
      simp only [vpu_alloc]
      norm_num
    rw [hbrk, hbase, hun, key]
    constructor
    · intro hover
      rw [if_pos hover]
      rfl
    · intro p s' hok
      by_cases hover : VPU_BASE_64 + VPU_POOL_SIZE < s.brk_64 + alignUp size
      · rw [if_pos hover] at hok
        exact absurd hok (by simp [Except.map])
      · rw [if_neg hover] at hok
        simp only [Except.map] at hok
        rw [Except.ok.injEq, Prod.mk.injEq] at hok
        obtain ⟨hp, hs⟩ := hok
        subst hp
        subst hs
        refine ⟨rfl, hmask, rfl, ?_, ?_, ?_⟩
        · exact show s.brk_64 + alignUp size ≤ VPU_BASE_64 + VPU_POOL_SIZE by omega
        · intro w' hw' hne
          rcases hw' with rfl | rfl | rfl | rfl | rfl <;>
            first
            | rfl
            | exact absurd rfl hne
        · simp only [allocInv, poolInv, ALIGNMENT, N_LANES, WORD_WIDTH]
          refine ⟨⟨?_, ?_, ?_⟩, ⟨?_, ?_, ?_⟩, ⟨?_, ?_, ?_⟩, ⟨?_, ?_, ?_⟩,
            ⟨?_, ?_, ?_⟩⟩ <;> omega

/-- Invariant preservation, cursor monotonicity, per-entry bounds and
ordered separation for a whole run of vpu_alloc calls. -/
theorem allocRun_spec : ∀ (reqs : List (ℕ × ℤ)) (s : AllocState),
    allocInv s → (∀ r ∈ reqs, validWidth r.2 ∧ r.1 < 2 ^ 63) →
    ∀ tr sF, allocRun s reqs = .ok (tr, sF) →
      allocInv sF ∧
      (∀ w, validWidth w → poolBrk w s ≤ poolBrk w sF) ∧
      (∀ e ∈ tr, validWidth e.1 ∧ e.2.1 % 32 = 0 ∧
        poolBrk e.1 s ≤ e.2.1 ∧ e.2.1 + e.2.2 ≤ poolBrk e.1 sF ∧
        poolBase e.1 ≤ e.2.1 ∧ e.2.1 + e.2.2 ≤ poolBase e.1 + VPU_POOL_SIZE) ∧
      tr.Pairwise (fun a b => a.1 = b.1 → a.2.1 + a.2.2 ≤ b.2.1) := by
  intro reqs
  induction reqs with
  | nil =>
    intro s hinv _ tr sF hrun
    simp only [allocRun] at hrun
    rw [Except.ok.injEq, Prod.mk.injEq] at hrun
    obtain ⟨htr, hsF⟩ := hrun
    subst htr
    subst hsF
    exact ⟨hinv, fun w _ => le_rfl, by simp, by simp⟩
  | cons hd rest ih =>
    intro s hinv hok tr sF hrun
    obtain ⟨size, w⟩ := hd
    simp only [allocRun] at hrun
    cases hv : vpu_alloc size w s with
    | error e =>
      simp only [hv] at hrun
      exact absurd hrun (by simp)
    | ok ps =>
      obtain ⟨p, s'⟩ := ps
      simp only [hv] at hrun
      cases hr : allocRun s' rest with
      | error e =>
        simp only [hr] at hrun
        exact absurd hrun (by simp)
      | ok trs =>
        obtain ⟨tr', sF'⟩ := trs
        simp only [hr] at hrun
        rw [Except.ok.injEq, Prod.mk.injEq] at hrun
        obtain ⟨htr, hsF⟩ := hrun
        subst htr
        subst hsF
        have hw := (hok (size, w) (by simp)).1
        have hsz := (hok (size, w) (by simp)).2
        obtain ⟨_, hstep⟩ := vpu_alloc_step size w s hw hsz hinv
        obtain ⟨hp, hp32, hbrk', hbrkle, hother, hinv'⟩ := hstep p s' hv
        have hok' : ∀ r ∈ rest, validWidth r.2 ∧ r.1 < 2 ^ 63 :=
          fun r hr2 => hok r (by simp [hr2])
        obtain ⟨hinvF, hmono, hentries, hpair⟩ := ih s' hinv' hok' tr' sF' hr
        refine ⟨hinvF, ?_, ?_, ?_⟩
        · intro w' hw'
          by_cases he : w' = w
          · rw [he]
            have h2 := hmono w hw
            omega
          · rw [← hother w' hw' he]
            exact hmono w' hw'
        · intro e he
          rcases List.mem_cons.mp he with rfl | he'
          · refine ⟨hw, hp32, le_of_eq hp.symm, ?_, ?_, ?_⟩
            · exact show p + alignUp size ≤ poolBrk w sF' from by
                have h2 := hmono w hw
                omega
            · exact show poolBase w ≤ p from by
                rw [hp]
                exact poolBase_le_brk w s hw hinv
            · exact show p + alignUp size ≤ poolBase w + VPU_POOL_SIZE from by omega
          · obtain ⟨hew, he32, hel, heu, heb, hebu⟩ := hentries e he'
            refine ⟨hew, he32, ?_, heu, heb, hebu⟩
            by_cases he2 : e.1 = w
            · have h3 : poolBrk e.1 s ≤ poolBrk e.1 s' := by
                rw [he2]
                omega
              omega
            · rw [hother e.1 hew he2] at hel
              exact hel
        · rw [List.pairwise_cons]
          refine ⟨?_, hpair⟩
          intro b hb hsame
          obtain ⟨hbw, _, hbl', _, _, _⟩ := hentries b hb
          have hsame' : w = b.1 := hsame
          have h1 : p + alignUp size ≤ poolBrk b.1 s' := by
            rw [← hsame']
            omega
          exact show p + alignUp size ≤ b.2.1 from le_trans h1 hbl'

/-- Every prefix of a successful run succeeds. -/
theorem allocRun_take : ∀ (reqs : List (ℕ × ℤ)) (s : AllocState)
    (tr : List (ℤ × ℕ × ℕ)) (sF : AllocState),
    allocRun s reqs = .ok (tr, sF) →
    ∀ k, ∃ trk sk, allocRun s (reqs.take k) = .ok (trk, sk) := by
  intro reqs
  induction reqs with
  | nil =>
    intro s tr sF _ k
    exact ⟨[], s, by simp [allocRun]⟩
  | cons hd rest ih =>
    intro s tr sF h k
    cases k with
    | zero => exact ⟨[], s, rfl⟩
    | succ k' =>
      obtain ⟨size, w⟩ := hd
      simp only [allocRun] at h
      cases hv : vpu_alloc size w s with
      | error e =>
        simp only [hv] at h
        exact absurd h (by simp)
      | ok ps =>
        obtain ⟨p, s'⟩ := ps
        simp only [hv] at h
        cases hr : allocRun s' rest with
        | error e =>
          simp only [hr] at h
          exact absurd h (by simp)
        | ok trs =>
          obtain ⟨tr', sF'⟩ := trs
          obtain ⟨trk, sk, hk⟩ := ih s' tr' sF' hr k'
          refine ⟨(w, p, alignUp size) :: trk, sk, ?_⟩
          rw [List.take_succ_cons]
          simp only [allocRun, hv, hk]

theorem initialAllocState_inv : allocInv initialAllocState := by
  simp only [allocInv, poolInv, initialAllocState]
  norm_num [VPU_BASE_1, VPU_BASE_8, VPU_BASE_16, VPU_BASE_32, VPU_BASE_64,
    VPU_POOL_SIZE, ALIGNMENT, N_LANES, WORD_WIDTH]

/-! ## Claim C6 -/

/-- C6 counterexample: a single vpu_alloc call with size 2^64 - 32 in width
class 32 completes without terminating (it returns the pool base), yet the
cursor addition wraps mod 2^64 and leaves the cursor below the pool's base
address, violating base ≤ cursor. -/
theorem c6_counterexample :
    vpu_alloc (2 ^ 64 - 32) 32 initialAllocState =
      .ok (VPU_BASE_32, { initialAllocState with brk_32 := VPU_BASE_32 - 32 }) ∧
    VPU_BASE_32 - 32 < VPU_BASE_32 := by
  refine ⟨by rfl, by norm_num [VPU_BASE_32]⟩

/-- C6 (amended): for every sequence of vpu_alloc calls with valid width
classes and request sizes below 2^63 (so the size_t arithmetic cannot wrap)
that all complete without terminating, the returned regions within any one
width class are pairwise non-overlapping, every returned pointer is a
multiple of the 32-byte alignment, and after every call each pool cursor
satisfies base ≤ cursor ≤ base + capacity and is a multiple of the
alignment. -/
theorem c6_alloc_invariants (reqs : List (ℕ × ℤ))
    (hreq : ∀ r ∈ reqs, validWidth r.2 ∧ r.1 < 2 ^ 63)
    (tr : List (ℤ × ℕ × ℕ)) (sF : AllocState)
    (hrun : allocRun initialAllocState reqs = .ok (tr, sF)) :
    tr.Pairwise (fun a b => a.1 = b.1 →
      ∀ x, ¬(a.2.1 ≤ x ∧ x < a.2.1 + a.2.2 ∧ b.2.1 ≤ x ∧ x < b.2.1 + b.2.2)) ∧
    (∀ e ∈ tr, e.2.1 % ALIGNMENT = 0) ∧
    (∀ k, ∃ trk sk, allocRun initialAllocState (reqs.take k) = .ok (trk, sk) ∧
      allocInv sk) := by
  have hinv0 : allocInv initialAllocState := initialAllocState_inv
  obtain ⟨hinvF, hmono, hentries, hpair⟩ :=
    allocRun_spec reqs initialAllocState hinv0 hreq tr sF hrun
  refine ⟨?_, ?_, ?_⟩
  · refine hpair.imp ?_
    intro a b h hsame x hx
    have h2 := h hsame
    omega
  · intro e he
    have h32 := (hentries e he).2.1
    have hA : ALIGNMENT = 32 := rfl
    rw [hA]
    exact h32
  · intro k
    obtain ⟨trk, sk, hk⟩ := allocRun_take reqs initialAllocState tr sF hrun k
    have hreqk : ∀ r ∈ reqs.take k, validWidth r.2 ∧ r.1 < 2 ^ 63 :=
      fun r hr => hreq r (List.mem_of_mem_take hr)
    obtain ⟨hinvk, _, _, _⟩ :=
      allocRun_spec (reqs.take k) initialAllocState hinv0 hreqk trk sk hk
    exact ⟨trk, sk, hk, hinvk⟩

theorem c6_alloc_invariants_witness :
    ([((32 : ℤ), (0x900C0000 : ℕ), (128 : ℕ)), (32, 0x900C0080, 128)]).Pairwise
      (fun a b => a.1 = b.1 →
        ∀ x, ¬(a.2.1 ≤ x ∧ x < a.2.1 + a.2.2 ∧ b.2.1 ≤ x ∧ x < b.2.1 + b.2.2)) ∧
    (∀ e ∈ ([((32 : ℤ), (0x900C0000 : ℕ), (128 : ℕ)), (32, 0x900C0080, 128)] :
      List (ℤ × ℕ × ℕ)), e.2.1 % ALIGNMENT = 0) ∧
    (∀ k, ∃ trk sk,
      allocRun initialAllocState (([(100, 32), (100, 32)] : List (ℕ × ℤ)).take k)
        = .ok (trk, sk) ∧ allocInv sk) :=
  c6_alloc_invariants [(100, 32), (100, 32)]
    (by norm_num [List.forall_mem_cons, validWidth]) _ _ (by rfl)

/-! ## Claim C7 -/

/-- C7 counterexample: the call vpu_alloc(2^64 - 32, 32) from the initial
state has a rounded size that would advance the cursor far past
base + capacity, yet it does not terminate with status 2: it returns a
pointer, and the region [pointer, pointer + rounded size) extends beyond
the pool. -/
theorem c7_counterexample :
    VPU_BASE_32 + VPU_POOL_SIZE < initialAllocState.brk_32 + alignUp (2 ^ 64 - 32) ∧
    vpu_alloc (2 ^ 64 - 32) 32 initialAllocState =
      .ok (VPU_BASE_32, { initialAllocState with brk_32 := VPU_BASE_32 - 32 }) ∧
    VPU_BASE_32 + VPU_POOL_SIZE < VPU_BASE_32 + alignUp (2 ^ 64 - 32) := by
  refine ⟨by decide, by rfl, by decide⟩

/-- C7 (amended): for a valid width class, a request size below 2^63 (so the
size_t arithmetic cannot wrap) and a state satisfying the pool invariant, a
call whose rounded size would advance the selected cursor past
base + capacity terminates with the exhaustion status 2 and returns no
region, and every region that is returned lies entirely within
[base, base + capacity] of the selected pool. -/
theorem c7_alloc_bounds (size : ℕ) (w : ℤ) (s : AllocState) (hw : validWidth w)
    (hsz : size < 2 ^ 63) (hinv : allocInv s) :
    (poolBase w + VPU_POOL_SIZE < poolBrk w s + alignUp size →
      vpu_alloc size w s = .error 2) ∧
    (∀ p s', vpu_alloc size w s = .ok (p, s') →
      poolBase w ≤ p ∧ p + alignUp size ≤ poolBase w + VPU_POOL_SIZE) := by
  obtain ⟨hov, hok⟩ := vpu_alloc_step size w s hw hsz hinv
  refine ⟨hov, ?_⟩
  intro p s' h
  obtain ⟨hp, _, hb', hb'le, _, _⟩ := hok p s' h
  constructor
  · rw [hp]
    exact poolBase_le_brk w s hw hinv
  · omega

theorem c7_alloc_bounds_witness :
    (poolBase 32 + VPU_POOL_SIZE <
        poolBrk 32 initialAllocState + alignUp (2 ^ 19) →
      vpu_alloc (2 ^ 19) 32 initialAllocState = .error 2) ∧
    (∀ p s', vpu_alloc (2 ^ 19) 32 initialAllocState = .ok (p, s') →
      poolBase 32 ≤ p ∧ p + alignUp (2 ^ 19) ≤ poolBase 32 + VPU_POOL_SIZE) :=
  c7_alloc_bounds (2 ^ 19) 32 initialAllocState (by norm_num [validWidth])
    (by norm_num) initialAllocState_inv

/-! ## Claim C8 -/

/-- C8: a width class outside {1, 8, 16, 32, 64} terminates immediately with
the configuration status 1, for every size and every state, before any pool
is selected or any cursor is touched (the model raises the error ahead of
all cursor computation); status 1 is distinct from the exhaustion
status 2. -/
theorem c8_invalid_width (size : ℕ) (w : ℤ) (s : AllocState)
    (hw : ¬ validWidth w) :
    vpu_alloc size w s = .error 1 ∧
    (Except.error 1 : Except ℕ (ℕ × AllocState)) ≠ .error 2 := by
  constructor
  · rw [validWidth] at hw
    push_neg at hw
    obtain ⟨h1, h8, h16, h32, h64⟩ := hw
    simp only [vpu_alloc, if_neg h1, if_neg h8, if_neg h16, if_neg h32, if_neg h64]
  · intro h
    have := Except.error.inj h
    omega

theorem c8_invalid_width_witness :
    vpu_alloc 0 5 initialAllocState = .error 1 ∧
    (Except.error 1 : Except ℕ (ℕ × AllocState)) ≠ .error 2 :=
  c8_invalid_width 0 5 initialAllocState (by norm_num [validWidth])

/-! ## Claim C10 -/

/-- C10: for any size greater than SIZE_MAX - 31 the rounding step wraps
mod 2^64 down to 0, so vpu_alloc returns the pool pointer successfully and
advances the cursor by the wrapped amount (zero), instead of detecting
pool exhaustion for the requested size. -/
theorem c10_rounding_wrap (size : ℕ) (h1 : 2 ^ 64 - 32 < size)
    (h2 : size < 2 ^ 64) :
    alignUp size = 0 ∧
    vpu_alloc size 32 initialAllocState = .ok (VPU_BASE_32, initialAllocState) := by
  have ha : alignUp size = 0 := by
    rw [alignUp]
    have h3 : size + ALIGNMENT - 1 = size + 31 := by
      norm_num [ALIGNMENT, N_LANES, WORD_WIDTH]
    have h4 : (size + 31) % 2 ^ 64 = size + 31 - 2 ^ 64 := by
      rw [Nat.mod_eq_sub_mod (by omega), Nat.mod_eq_of_lt (by omega)]
    rw [h3, h4, and_align_mask _ (by omega)]
    have h5 : size + 31 - 2 ^ 64 < 32 := by omega
    omega
  refine ⟨ha, ?_⟩
  have hun : vpu_alloc size 32 initialAllocState =
      (allocPool (alignUp size) initialAllocState.brk_32
        (VPU_BASE_32 + VPU_POOL_SIZE)).map
        fun pb => (pb.1, { initialAllocState with brk_32 := pb.2 }) := by
    simp only [vpu_alloc]
    norm_num
  rw [hun, ha, allocPool_eq 0 initialAllocState.brk_32 (VPU_BASE_32 + VPU_POOL_SIZE)
    (by decide) (by decide) (by decide) (by norm_num)]
  rw [if_neg (by decide)]
  rfl

theorem c10_rounding_wrap_witness :
    alignUp (2 ^ 64 - 1) = 0 ∧
    vpu_alloc (2 ^ 64 - 1) 32 initialAllocState =
      .ok (VPU_BASE_32, initialAllocState) :=
  c10_rounding_wrap (2 ^ 64 - 1) (by norm_num) (by norm_num)
